import Mathlib

/-!
Verification of the in-memory weighted graph with Dijkstra shortest-path query
implemented in `webapp/backend/src/models/graph.rs`.

Modelling notes:
* The Rust `HashMap<i32, _>` maps are embedded as association lists
  (`List (Int × _)`) with first-match lookup; `insert` replaces the first
  binding of the key or appends a fresh one, and `entry(k).or_default().push(e)`
  appends to the first binding's vector or creates a fresh singleton binding.
  The code never iterates over a map, so only the lookup/insert behaviour is
  observable and the association-list model is faithful.
* The `i32` identifiers, weights and costs are embedded as `Int`.  The claims
  about the algorithm restrict themselves to inputs whose path-cost sums do not
  overflow `i32`; on those inputs `Int` arithmetic agrees with the source's
  `i32` arithmetic.  `i32::MAX` is the literal `2147483647`.
* `BinaryHeap<State>` (a max-heap over the flipped cost order, hence a min-cost
  heap) is embedded as a list with a pop-minimum operation.  Among entries of
  equal cost the source's pop order is unspecified; the model pops the
  earliest-pushed minimal entry.
* The `while let Some(...) = heap.pop()` loop of `shortest_path` does not
  structurally terminate for arbitrary inputs (a reachable negative-weight
  cycle makes the relaxation improve distances forever), so the loop takes an
  explicit fuel argument and returns `none` when the fuel runs out.
  `Returns g s t v` states that the loop terminates with value `v` for some
  fuel (hence, by fuel monotonicity, for every larger fuel).
-/

namespace GraphRs

/-- Row type `Node { id, x, y }` from the source. -/
structure Node where
  id : Int
  x : Int
  y : Int
deriving DecidableEq, Repr

/-- Row type `Edge { node_a_id, node_b_id, weight }` from the source. -/
structure Edge where
  node_a_id : Int
  node_b_id : Int
  weight : Int
deriving DecidableEq, Repr

/-- Priority-queue item `State { cost, position }` from the source. -/
structure State where
  cost : Int
  position : Int
deriving DecidableEq, Repr

/-- First-match lookup in an association list; models `HashMap::get`. -/
def alookup {α : Type} : List (Int × α) → Int → Option α
  | [], _ => none
  | p :: rest, k => if p.1 = k then some p.2 else alookup rest k

/-- Replace the first binding of the key, or append a fresh binding; models
`HashMap::insert`. -/
def ainsert {α : Type} : List (Int × α) → Int → α → List (Int × α)
  | [], k, v => [(k, v)]
  | p :: rest, k, v => if p.1 = k then (k, v) :: rest else p :: ainsert rest k v

/-- Append an edge to the adjacency vector of `k`, creating the binding if it
is absent; models `self.edges.entry(k).or_default().push(e)`. -/
def pushEdge : List (Int × List Edge) → Int → Edge → List (Int × List Edge)
  | [], k, e => [(k, [e])]
  | p :: rest, k, e => if p.1 = k then (p.1, p.2 ++ [e]) :: rest else p :: pushEdge rest k e

/-- The graph aggregate: node map and adjacency map, as in the source. -/
structure Graph where
  nodes : List (Int × Node)
  edges : List (Int × List Edge)

/-- `Graph::new()`. -/
def Graph.new : Graph := ⟨[], []⟩

/-- `Graph::add_node`. -/
def Graph.add_node (g : Graph) (node : Node) : Graph :=
  { g with nodes := ainsert g.nodes node.id node }

/-- The synthesized reverse arc built inside `Graph::add_edge`. -/
def Edge.reverse (e : Edge) : Edge := ⟨e.node_b_id, e.node_a_id, e.weight⟩

/-- `Graph::add_edge`: append the arc to `node_a_id`'s list, then append the
freshly constructed reverse arc to `node_b_id`'s list. -/
def Graph.add_edge (g : Graph) (edge : Edge) : Graph :=
  { g with edges :=
      pushEdge (pushEdge g.edges edge.node_a_id edge) edge.node_b_id edge.reverse }

/-- Adjacency list of a node id.  An absent binding behaves as the empty list,
exactly as the skipped `if let Some(edges) = self.edges.get(&position)` does. -/
def edgesAt (E : List (Int × List Edge)) (k : Int) : List Edge :=
  (alookup E k).getD []

/-- The sentinel `i32::MAX` returned for unreachable targets. -/
def i32Max : Int := 2147483647

/-- Pop an entry of minimal cost from the heap list, together with the
remaining entries; models `BinaryHeap::pop` under the source's flipped cost
order.  Among equal costs the earliest-pushed entry is popped; the source
leaves that order unspecified and no result below depends on it. -/
def popMin : List State → Option (State × List State)
  | [] => none
  | s :: rest =>
    match popMin rest with
    | none => some (s, [])
    | some (m, r) => if s.cost ≤ m.cost then some (s, rest) else some (m, s :: r)

/-- The `for edge in edges` relaxation loop body of `shortest_path`: for each
arc out of the popped position, if the candidate cost beats the recorded
distance of the arc's head (or no distance is recorded), record it and push the
new state. -/
def relaxEdges : List Edge → Int → List (Int × Int) → List State →
    List (Int × Int) × List State
  | [], _, dist, heap => (dist, heap)
  | e :: rest, cost, dist, heap =>
    let next : State := ⟨cost + e.weight, e.node_b_id⟩
    let is_shorter : Bool :=
      match alookup dist next.position with
      | none => true
      | some current => decide (next.cost < current)
    if is_shorter then
      relaxEdges rest cost (ainsert dist next.position next.cost) (heap ++ [next])
    else
      relaxEdges rest cost dist heap

/-- The `while let Some(State { cost, position }) = heap.pop()` loop of
`shortest_path`, with explicit fuel.  An empty heap returns the sentinel; a pop
of the target returns its cost immediately; a stale pop (cost strictly above
the recorded distance) is skipped; otherwise every outgoing arc is relaxed. -/
def dijkstraLoop (E : List (Int × List Edge)) (to_node_id : Int) :
    Nat → List (Int × Int) → List State → Option Int
  | 0, _, _ => none
  | fuel + 1, dist, heap =>
    match popMin heap with
    | none => some i32Max
    | some (s, rest) =>
      if s.position = to_node_id then some s.cost
      else
        match alookup dist s.position with
        | some current =>
          if current < s.cost then dijkstraLoop E to_node_id fuel dist rest
          else
            dijkstraLoop E to_node_id fuel
              (relaxEdges (edgesAt E s.position) s.cost dist rest).1
              (relaxEdges (edgesAt E s.position) s.cost dist rest).2
        | none =>
          dijkstraLoop E to_node_id fuel
            (relaxEdges (edgesAt E s.position) s.cost dist rest).1
            (relaxEdges (edgesAt E s.position) s.cost dist rest).2

/-- `Graph::shortest_path`: seed the distance map with `from ↦ 0`, push
`State { cost: 0, position: from }`, and run the loop. -/
def Graph.shortest_path (g : Graph) (from_node_id to_node_id : Int) (fuel : Nat) :
    Option Int :=
  dijkstraLoop g.edges to_node_id fuel (ainsert [] from_node_id 0)
    [⟨0, from_node_id⟩]

/-- The loop terminates with value `v` for some fuel. -/
def Returns (g : Graph) (s t v : Int) : Prop :=
  ∃ fuel, g.shortest_path s t fuel = some v

/-- A walk of stored arcs from `u` to `v` of total weight `c`. -/
inductive Reaches (E : List (Int × List Edge)) : Int → Int → Int → Prop
  | refl (v : Int) : Reaches E v v 0
  | step {u v c : Int} (e : Edge) (he : e ∈ edgesAt E u)
      (h : Reaches E e.node_b_id v c) : Reaches E u v (e.weight + c)

/-- No walk of stored arcs leads from `s` to `t`. -/
def Unreachable (E : List (Int × List Edge)) (s t : Int) : Prop :=
  ∀ c, ¬ Reaches E s t c

/-- Every stored arc has non-negative weight. -/
def nonnegWeights (E : List (Int × List Edge)) : Prop :=
  ∀ p ∈ E, ∀ e ∈ p.2, 0 ≤ e.weight

instance nonnegWeightsDecidable (E : List (Int × List Edge)) :
    Decidable (nonnegWeights E) :=
  inferInstanceAs (Decidable (∀ p ∈ E, ∀ e ∈ p.2, 0 ≤ e.weight))

/-- `d` is the minimum total weight over all walks from `s` to `t`. -/
def IsMinDist (E : List (Int × List Edge)) (s t d : Int) : Prop :=
  Reaches E s t d ∧ ∀ c, Reaches E s t c → d ≤ c

/-- Graphs producible from `Graph::new()` by the two mutators. -/
inductive Built : Graph → Prop
  | new : Built Graph.new
  | add_edge {g : Graph} (e : Edge) : Built g → Built (g.add_edge e)
  | add_node {g : Graph} (n : Node) : Built g → Built (g.add_node n)

/-- Every stored arc is keyed by its own tail and has its exact reverse arc
stored under its head. -/
def SymmInv (g : Graph) : Prop :=
  ∀ a : Int, ∀ e ∈ edgesAt g.edges a,
    e.node_a_id = a ∧ e.reverse ∈ edgesAt g.edges e.node_b_id

/-- Two parallel undirected edges between nodes 1 and 2, weights 7 and 3. -/
def gPar : Graph := (Graph.new.add_edge ⟨1, 2, 7⟩).add_edge ⟨1, 2, 3⟩

/-- Triangle 1-2 (4), 2-3 (5), 1-3 (10): the spec's worked example. -/
def gTri : Graph :=
  ((Graph.new.add_edge ⟨1, 2, 4⟩).add_edge ⟨2, 3, 5⟩).add_edge ⟨1, 3, 10⟩

/-- A single negative-weight undirected edge between nodes 1 and 2. -/
def gNeg : Graph := Graph.new.add_edge ⟨1, 2, -1⟩

/-- A chain 1-2-3-4 whose three edges all carry weight `i32::MAX`; node 5 is
isolated.  Path-cost sums along the chain exceed `i32::MAX`. -/
def gBig : Graph :=
  ((Graph.new.add_edge ⟨1, 2, i32Max⟩).add_edge ⟨2, 3, i32Max⟩).add_edge
    ⟨3, 4, i32Max⟩

/-! ### The Dijkstra loop invariant

`P` is the ghost set of processed (settled) positions: positions that were
popped non-stale and had their outgoing arcs relaxed. -/

structure Inv (E : List (Int × List Edge)) (s t : Int) (P : Int → Prop)
    (dist : List (Int × Int)) (heap : List State) : Prop where
  dist_sound : ∀ v d, alookup dist v = some d → Reaches E s v d
  heap_sound : ∀ x ∈ heap, Reaches E s x.position x.cost
  heap_ge : ∀ x ∈ heap, ∃ d, alookup dist x.position = some d ∧ d ≤ x.cost
  done_min : ∀ v, P v → ∃ d, alookup dist v = some d ∧ ∀ c, Reaches E s v c → d ≤ c
  done_relaxed : ∀ v, P v → ∀ e ∈ edgesAt E v, ∃ dv du,
    alookup dist v = some dv ∧ alookup dist e.node_b_id = some du ∧ du ≤ dv + e.weight
  pending : ∀ v d, alookup dist v = some d → P v ∨ (⟨d, v⟩ : State) ∈ heap
  source_le : ∃ d, alookup dist s = some d ∧ d ≤ 0
  target_not_done : ¬ P t

/-- Sum of the recorded distances, clamped to naturals. -/
def sumNatDist (dist : List (Int × Int)) : Nat :=
  (dist.map (fun p => p.2.toNat)).sum

/-- All arc heads appearing anywhere in the adjacency map. -/
def allTargets (E : List (Int × List Edge)) : List Int :=
  (E.map (fun p => p.2.map (fun e => e.node_b_id))).flatten

/-- Number of (occurrences of) arc heads with no recorded distance yet. -/
def unsetCount (E : List (Int × List Edge)) (dist : List (Int × Int)) : Nat :=
  ((allTargets E).filter (fun k => (alookup dist k).isNone)).length

/-! ### Association-list lemmas -/

theorem alookup_ainsert {α : Type} (l : List (Int × α)) (k : Int) (v : α) (j : Int) :
    alookup (ainsert l k v) j = if j = k then some v else alookup l j := by
  induction l with
  | nil =>
    by_cases h : j = k
    · subst h
      simp [ainsert, alookup]
    · have h2 : ¬ k = j := fun hh => h hh.symm
      simp [ainsert, alookup, h, h2]
  | cons p rest ih =>
    obtain ⟨k0, v0⟩ := p
    by_cases hp : k0 = k
    · subst hp
      by_cases h : j = k0
      · subst h
        simp [ainsert, alookup]
      · have h2 : ¬ k0 = j := fun hh => h hh.symm
        simp [ainsert, alookup, h, h2]
    · by_cases h : k0 = j
      · subst h
        have : ¬ k0 = k := hp
        simp [ainsert, alookup, this]
      · simp [ainsert, alookup, hp, h, ih]

theorem alookup_mem {α : Type} {l : List (Int × α)} {k : Int} {v : α}
    (h : alookup l k = some v) : (k, v) ∈ l := by
  induction l with
  | nil => simp [alookup] at h
  | cons p rest ih =>
    obtain ⟨k0, v0⟩ := p
    by_cases hp : k0 = k
    · subst hp
      simp only [alookup, if_pos] at h
      cases h
      exact List.mem_cons_self _ _
    · simp only [alookup, if_neg hp] at h
      exact List.mem_cons_of_mem _ (ih h)

theorem alookup_pushEdge (E : List (Int × List Edge)) (k : Int) (e : Edge) (j : Int) :
    alookup (pushEdge E k e) j =
      if j = k then some ((alookup E k).getD [] ++ [e]) else alookup E j := by
  induction E with
  | nil =>
    by_cases h : j = k
    · subst h
      simp [pushEdge, alookup]
    · have h2 : ¬ k = j := fun hh => h hh.symm
      simp [pushEdge, alookup, h, h2]
  | cons p rest ih =>
    obtain ⟨k0, l0⟩ := p
    by_cases hp : k0 = k
    · subst hp
      by_cases h : j = k0
      · subst h
        simp [pushEdge, alookup]
      · have h2 : ¬ k0 = j := fun hh => h hh.symm
        simp [pushEdge, alookup, h, h2]
    · by_cases h : k0 = j
      · subst h
        have h2 : ¬ k0 = k := hp
        simp [pushEdge, alookup, h2]
      · simp [pushEdge, alookup, hp, h, ih]

theorem edgesAt_pushEdge (E : List (Int × List Edge)) (k : Int) (e : Edge) (j : Int) :
    edgesAt (pushEdge E k e) j =
      if j = k then edgesAt E k ++ [e] else edgesAt E j := by
  unfold edgesAt
  rw [alookup_pushEdge]
  by_cases h : j = k
  · simp [h]
  · simp [h]

/-- Effect of `add_edge` on every adjacency list: the tail endpoint's list gets
the reverse arc appended, the head endpoint's list gets the arc appended (both
appends on the same list for a self-loop), and all other lists are unchanged. -/
theorem edgesAt_add_edge (g : Graph) (e : Edge) (j : Int) :
    edgesAt (g.add_edge e).edges j =
      if j = e.node_b_id then
        (if e.node_a_id = e.node_b_id then edgesAt g.edges j ++ [e, e.reverse]
         else edgesAt g.edges j ++ [e.reverse])
      else if j = e.node_a_id then edgesAt g.edges j ++ [e]
      else edgesAt g.edges j := by
  show edgesAt (pushEdge (pushEdge g.edges e.node_a_id e) e.node_b_id e.reverse) j = _
  rw [edgesAt_pushEdge]
  by_cases hb : j = e.node_b_id
  · subst hb
    rw [if_pos rfl, if_pos rfl, edgesAt_pushEdge]
    by_cases hab : e.node_a_id = e.node_b_id
    · rw [if_pos hab.symm, if_pos hab, hab]
      simp
    · rw [if_neg (fun hh => hab hh.symm), if_neg hab]
  · rw [if_neg hb, if_neg hb, edgesAt_pushEdge]
    by_cases ha : j = e.node_a_id
    · subst ha
      rw [if_pos rfl]
    · rw [if_neg ha, if_neg ha]

/-- Arcs present before an `add_edge` are still present afterwards (the
operation only appends). -/
theorem mem_edgesAt_add_edge_of_mem {g : Graph} {j : Int} {a : Edge} (e : Edge)
    (h : a ∈ edgesAt g.edges j) : a ∈ edgesAt (g.add_edge e).edges j := by
  rw [edgesAt_add_edge]
  by_cases hb : j = e.node_b_id
  · rw [if_pos hb]
    by_cases hab : e.node_a_id = e.node_b_id
    · rw [if_pos hab]
      exact List.mem_append_left _ h
    · rw [if_neg hab]
      exact List.mem_append_left _ h
  · rw [if_neg hb]
    by_cases ha : j = e.node_a_id
    · rw [if_pos ha]
      exact List.mem_append_left _ h
    · rw [if_neg ha]
      exact h

theorem symmInv_new : SymmInv Graph.new := by
  intro a e he
  simp [Graph.new, edgesAt, alookup] at he

theorem symmInv_add_node {g : Graph} (n : Node) (h : SymmInv g) :
    SymmInv (g.add_node n) := h

theorem symmInv_add_edge {g : Graph} (e₀ : Edge) (h : SymmInv g) :
    SymmInv (g.add_edge e₀) := by
  have hrev_b : e₀.reverse ∈ edgesAt (g.add_edge e₀).edges e₀.node_b_id := by
    rw [edgesAt_add_edge]
    by_cases hab : e₀.node_a_id = e₀.node_b_id
    · rw [if_pos rfl, if_pos hab]
      exact List.mem_append_right _ (by simp)
    · rw [if_pos rfl, if_neg hab]
      exact List.mem_append_right _ (by simp)
  have he_a : e₀ ∈ edgesAt (g.add_edge e₀).edges e₀.node_a_id := by
    rw [edgesAt_add_edge]
    by_cases hab : e₀.node_a_id = e₀.node_b_id
    · rw [if_pos hab, if_pos hab]
      exact List.mem_append_right _ (by simp)
    · rw [if_neg hab, if_pos rfl]
      exact List.mem_append_right _ (by simp)
  intro a e he
  rw [edgesAt_add_edge] at he
  by_cases hb : a = e₀.node_b_id
  · rw [if_pos hb] at he
    by_cases hab : e₀.node_a_id = e₀.node_b_id
    · rw [if_pos hab] at he
      rcases List.mem_append.mp he with hold | hnew
      · obtain ⟨h1, h2⟩ := h a e hold
        exact ⟨h1, mem_edgesAt_add_edge_of_mem e₀ h2⟩
      · have : e = e₀ ∨ e = e₀.reverse := by simpa using hnew
        rcases this with rfl | rfl
        · exact ⟨hab.trans hb.symm, hrev_b⟩
        · constructor
          · show e₀.node_b_id = a
            exact hb.symm
          · show e₀.reverse.reverse ∈ edgesAt (g.add_edge e₀).edges e₀.node_a_id
            have hrr : e₀.reverse.reverse = e₀ := rfl
            rw [hrr]
            exact he_a
    · rw [if_neg hab] at he
      rcases List.mem_append.mp he with hold | hnew
      · obtain ⟨h1, h2⟩ := h a e hold
        exact ⟨h1, mem_edgesAt_add_edge_of_mem e₀ h2⟩
      · have : e = e₀.reverse := List.mem_singleton.mp hnew
        subst this
        constructor
        · show e₀.node_b_id = a
          exact hb.symm
        · show e₀.reverse.reverse ∈ edgesAt (g.add_edge e₀).edges e₀.node_a_id
          have hrr : e₀.reverse.reverse = e₀ := rfl
          rw [hrr]
          exact he_a
  · rw [if_neg hb] at he
    by_cases ha : a = e₀.node_a_id
    · rw [if_pos ha] at he
      rcases List.mem_append.mp he with hold | hnew
      · obtain ⟨h1, h2⟩ := h a e hold
        exact ⟨h1, mem_edgesAt_add_edge_of_mem e₀ h2⟩
      · have : e = e₀ := List.mem_singleton.mp hnew
        subst this
        exact ⟨ha.symm, hrev_b⟩
    · rw [if_neg ha] at he
      obtain ⟨h1, h2⟩ := h a e he
      exact ⟨h1, mem_edgesAt_add_edge_of_mem e₀ h2⟩

theorem symmInv_of_built {g : Graph} (h : Built g) : SymmInv g := by
  induction h with
  | new => exact symmInv_new
  | add_edge e _ ih => exact symmInv_add_edge e ih
  | add_node n _ ih => exact symmInv_add_node n ih

/-! ### Fuel monotonicity and determinism of the loop -/

theorem dijkstraLoop_mono (E : List (Int × List Edge)) (t : Int) :
    ∀ fuel dist heap v, dijkstraLoop E t fuel dist heap = some v →
      dijkstraLoop E t (fuel + 1) dist heap = some v := by
  intro fuel
  induction fuel with
  | zero =>
    intro dist heap v h
    simp [dijkstraLoop] at h
  | succ n ih =>
    intro dist heap v h
    rw [dijkstraLoop] at h ⊢
    cases hpop : popMin heap with
    | none =>
      simp only [hpop] at h ⊢
      exact h
    | some pr =>
      obtain ⟨s, rest⟩ := pr
      simp only [hpop] at h ⊢
      by_cases hto : s.position = t
      · simp only [if_pos hto] at h ⊢
        exact h
      · simp only [if_neg hto] at h ⊢
        cases hl : alookup dist s.position with
        | none =>
          simp only [hl] at h ⊢
          exact ih _ _ _ h
        | some current =>
          simp only [hl] at h ⊢
          by_cases hc : current < s.cost
          · simp only [if_pos hc] at h ⊢
            exact ih _ _ _ h
          · simp only [if_neg hc] at h ⊢
            exact ih _ _ _ h

theorem dijkstraLoop_mono_le (E : List (Int × List Edge)) (t : Int)
    {fuel fuel2 : Nat} (hle : fuel ≤ fuel2) {dist : List (Int × Int)}
    {heap : List State} {v : Int} (h : dijkstraLoop E t fuel dist heap = some v) :
    dijkstraLoop E t fuel2 dist heap = some v := by
  induction hle with
  | refl => exact h
  | step _ ih => exact dijkstraLoop_mono E t _ _ _ _ ih

theorem shortest_path_mono_le {g : Graph} {s t : Int} {fuel fuel2 : Nat}
    (hle : fuel ≤ fuel2) {v : Int} (h : g.shortest_path s t fuel = some v) :
    g.shortest_path s t fuel2 = some v :=
  dijkstraLoop_mono_le _ _ hle h

theorem Returns_unique {g : Graph} {s t v w : Int}
    (h1 : Returns g s t v) (h2 : Returns g s t w) : v = w := by
  obtain ⟨f1, h1⟩ := h1
  obtain ⟨f2, h2⟩ := h2
  have e1 := shortest_path_mono_le (Nat.le_max_left f1 f2) h1
  have e2 := shortest_path_mono_le (Nat.le_max_right f1 f2) h2
  rw [e1] at e2
  exact (Option.some.injEq _ _).mp e2

/-! ### Walk lemmas -/

theorem Reaches.snoc {E : List (Int × List Edge)} {u v c : Int} (e : Edge)
    (h : Reaches E u v c) (he : e ∈ edgesAt E v) :
    Reaches E u e.node_b_id (c + e.weight) := by
  induction h with
  | refl w =>
    have := Reaches.step (E := E) e he (Reaches.refl e.node_b_id)
    simpa using this
  | step e2 he2 h2 ih =>
    have := Reaches.step (E := E) e2 he2 (ih he)
    have harith : ∀ a b c : Int, a + (b + c) = a + b + c := fun a b c => (add_assoc a b c).symm
    rw [harith] at this
    exact this

theorem Reaches.trans {E : List (Int × List Edge)} {u v w cuv cvw : Int}
    (h1 : Reaches E u v cuv) (h2 : Reaches E v w cvw) :
    Reaches E u w (cuv + cvw) := by
  induction h1 with
  | refl x => simpa using h2
  | step e he h ih =>
    have := Reaches.step (E := E) e he (ih h2)
    rw [add_assoc]
    exact this

theorem nonneg_edgesAt {E : List (Int × List Edge)} (hE : nonnegWeights E)
    {k : Int} {e : Edge} (he : e ∈ edgesAt E k) : 0 ≤ e.weight := by
  unfold edgesAt at he
  cases hl : alookup E k with
  | none =>
    rw [hl] at he
    simp at he
  | some l =>
    rw [hl] at he
    exact hE (k, l) (alookup_mem hl) e he

theorem Reaches.nonneg {E : List (Int × List Edge)} (hE : nonnegWeights E)
    {u v c : Int} (h : Reaches E u v c) : 0 ≤ c := by
  induction h with
  | refl x => exact le_refl 0
  | step e he h ih => exact add_nonneg (nonneg_edgesAt hE he) ih

theorem Reaches.symm_of_symmInv {g : Graph} (hs : SymmInv g) {u v c : Int}
    (h : Reaches g.edges u v c) : Reaches g.edges v u c := by
  induction h with
  | refl x => exact Reaches.refl x
  | step e he h ih =>
    obtain ⟨ha, hrev⟩ := hs _ e he
    have := Reaches.snoc e.reverse ih hrev
    have hb : e.reverse.node_b_id = e.node_a_id := rfl
    have hw : e.reverse.weight = e.weight := rfl
    rw [hb, hw, ha, add_comm] at this
    exact this

theorem Reaches.mono_add_edge {g : Graph} (e : Edge) {u v c : Int}
    (h : Reaches g.edges u v c) : Reaches (g.add_edge e).edges u v c := by
  induction h with
  | refl x => exact Reaches.refl x
  | step e2 he2 h ih => exact Reaches.step e2 (mem_edgesAt_add_edge_of_mem e he2) ih

theorem exists_minDist {E : List (Int × List Edge)} (hE : nonnegWeights E)
    {s t c : Int} (h : Reaches E s t c) : ∃ d, IsMinDist E s t d := by
  have hne : c.toNat ∈ {n : ℕ | Reaches E s t (n : Int)} := by
    show Reaches E s t _
    rwa [Int.toNat_of_nonneg (Reaches.nonneg hE h)]
  refine ⟨(sInf {n : ℕ | Reaches E s t (n : Int)} : ℕ), Nat.sInf_mem ⟨_, hne⟩, ?_⟩
  intro c2 hc2
  have h0 : 0 ≤ c2 := Reaches.nonneg hE hc2
  have hmem : c2.toNat ∈ {n : ℕ | Reaches E s t (n : Int)} := by
    show Reaches E s t _
    rwa [Int.toNat_of_nonneg h0]
  have hle := Nat.sInf_le hmem
  calc ((sInf {n : ℕ | Reaches E s t (n : Int)} : ℕ) : Int)
      ≤ (c2.toNat : Int) := by exact_mod_cast hle
    _ = c2 := Int.toNat_of_nonneg h0

/-- Claim C4: `shortest_path(n, n)` returns 0 for every graph and every node
identifier, for any positive fuel: the seed entry is popped first and it is
the target. -/
theorem shortest_path_self_zero (g : Graph) (n : Int) (fuel : Nat) :
    g.shortest_path n n (fuel + 1) = some 0 := by
  rw [Graph.shortest_path, dijkstraLoop]
  simp [popMin]

/-- Claim C3: `add_edge (a, b, w)` appends exactly the arc `a→b` (weight `w`)
to a's adjacency list and exactly the freshly synthesized reverse arc `b→a`
(weight `w`) to b's list, leaving every other list unchanged; consequently
every graph built through the mutators satisfies the symmetry invariant: each
stored arc is keyed by its tail and its reverse arc is stored under its
head. -/
theorem add_edge_appends_arc_and_reverse :
    (∀ (g : Graph) (e : Edge) (k : Int),
      edgesAt (g.add_edge e).edges k =
        (if k = e.node_b_id then
          (if e.node_a_id = e.node_b_id then edgesAt g.edges k ++ [e, e.reverse]
           else edgesAt g.edges k ++ [e.reverse])
         else if k = e.node_a_id then edgesAt g.edges k ++ [e]
         else edgesAt g.edges k)) ∧
    (∀ g : Graph, Built g → SymmInv g) :=
  ⟨fun g e k => edgesAt_add_edge g e k, fun _ h => symmInv_of_built h⟩

theorem add_edge_appends_arc_and_reverse_witness :
    SymmInv ((Graph.new.add_edge ⟨1, 2, 4⟩).add_edge ⟨2, 3, 5⟩) :=
  add_edge_appends_arc_and_reverse.2 _
    (Built.add_edge _ (Built.add_edge _ Built.new))

/-- Claim C7: `add_edge` does not deduplicate: after inserting the parallel
edges (1,2,7) and (1,2,3) both arcs (and both reverse arcs) are stored in
insertion order, and `shortest_path(1,2)` returns 3, the cheaper parallel
alternative, and returns nothing else at any fuel. -/
theorem parallel_edges_kept_min_wins :
    edgesAt gPar.edges 1 = [⟨1, 2, 7⟩, ⟨1, 2, 3⟩] ∧
    edgesAt gPar.edges 2 = [⟨2, 1, 7⟩, ⟨2, 1, 3⟩] ∧
    Returns gPar 1 2 3 ∧ ∀ v, Returns gPar 1 2 v → v = 3 := by
  refine ⟨by decide, by decide, ⟨2, by decide⟩, fun v hv => ?_⟩
  exact Returns_unique hv ⟨2, by decide⟩

/-- Claim C8: `shortest_path` reads only the adjacency map and its arguments,
never the node map: graphs with identical `edges` yield identical results for
every query and every fuel. -/
theorem shortest_path_depends_only_on_edges (g1 g2 : Graph)
    (h : g1.edges = g2.edges) (s t : Int) (fuel : Nat) :
    g1.shortest_path s t fuel = g2.shortest_path s t fuel := by
  rw [Graph.shortest_path, Graph.shortest_path, h]

theorem shortest_path_depends_only_on_edges_witness :
    (Graph.mk [(7, ⟨7, 1, 2⟩)] [(1, [⟨1, 2, 5⟩])]).shortest_path 1 2 5 =
      (Graph.mk [] [(1, [⟨1, 2, 5⟩])]).shortest_path 1 2 5 :=
  shortest_path_depends_only_on_edges _ _ rfl 1 2 5

/-- Claim C10: frame conditions of the mutators.  `add_node` leaves the
adjacency map untouched and changes only the node entry keyed by the inserted
node's id; `add_edge` leaves the node map untouched and only appends to the
adjacency lists of the edge's two endpoints, leaving every other list
unchanged. -/
theorem mutator_frame_conditions (g : Graph) (n : Node) (e : Edge) (k : Int) :
    (g.add_node n).edges = g.edges ∧
    alookup (g.add_node n).nodes k =
      (if k = n.id then some n else alookup g.nodes k) ∧
    (g.add_edge e).nodes = g.nodes ∧
    edgesAt (g.add_edge e).edges k =
      (if k = e.node_b_id then
        (if e.node_a_id = e.node_b_id then edgesAt g.edges k ++ [e, e.reverse]
         else edgesAt g.edges k ++ [e.reverse])
       else if k = e.node_a_id then edgesAt g.edges k ++ [e]
       else edgesAt g.edges k) :=
  ⟨rfl, alookup_ainsert g.nodes n.id n k, rfl, edgesAt_add_edge g e k⟩

/-! ### Heap-pop lemmas -/

theorem popMin_cons_ne_none (a : State) (as : List State) :
    popMin (a :: as) ≠ none := by
  rw [popMin]
  cases hp : popMin as with
  | none => simp
  | some pr =>
    obtain ⟨m, r⟩ := pr
    by_cases hc : a.cost ≤ m.cost <;> simp [hc]

theorem popMin_nil_of_eq_none {heap : List State} (h : popMin heap = none) :
    heap = [] := by
  cases heap with
  | nil => rfl
  | cons a as => exact absurd h (popMin_cons_ne_none a as)

theorem popMin_perm : ∀ {heap : List State} {x : State} {rest : List State},
    popMin heap = some (x, rest) → heap.Perm (x :: rest) := by
  intro heap
  induction heap with
  | nil =>
    intro x rest h
    simp [popMin] at h
  | cons a as ih =>
    intro x rest h
    rw [popMin] at h
    cases hp : popMin as with
    | none =>
      simp only [hp] at h
      cases h
      rw [popMin_nil_of_eq_none hp]
    | some pr =>
      obtain ⟨m, r⟩ := pr
      simp only [hp] at h
      by_cases hc : a.cost ≤ m.cost
      · rw [if_pos hc] at h
        cases h
        exact List.Perm.refl _
      · rw [if_neg hc] at h
        cases h
        exact ((ih hp).cons a).trans (List.Perm.swap _ a r)

theorem popMin_mem {heap : List State} {x : State} {rest : List State}
    (h : popMin heap = some (x, rest)) : x ∈ heap :=
  (popMin_perm h).mem_iff.mpr (List.mem_cons_self x rest)

theorem popMin_mem_rest {heap : List State} {x : State} {rest : List State}
    (h : popMin heap = some (x, rest)) {y : State} (hy : y ∈ rest) : y ∈ heap :=
  (popMin_perm h).mem_iff.mpr (List.mem_cons_of_mem x hy)

theorem popMin_cases {heap : List State} {x : State} {rest : List State}
    (h : popMin heap = some (x, rest)) {y : State} (hy : y ∈ heap) :
    y = x ∨ y ∈ rest :=
  List.mem_cons.mp ((popMin_perm h).mem_iff.mp hy)

theorem popMin_length {heap : List State} {x : State} {rest : List State}
    (h : popMin heap = some (x, rest)) : heap.length = rest.length + 1 := by
  have := (popMin_perm h).length_eq
  simpa using this

theorem popMin_min : ∀ {heap : List State} {x : State} {rest : List State},
    popMin heap = some (x, rest) → ∀ y ∈ heap, x.cost ≤ y.cost := by
  intro heap
  induction heap with
  | nil =>
    intro x rest h
    simp [popMin] at h
  | cons a as ih =>
    intro x rest h y hy
    rw [popMin] at h
    cases hp : popMin as with
    | none =>
      simp only [hp] at h
      cases h
      rw [popMin_nil_of_eq_none hp] at hy
      rcases List.mem_cons.mp hy with hxa | hxa
      · subst hxa
        exact le_refl _
      · simp at hxa
    | some pr =>
      obtain ⟨m, r⟩ := pr
      simp only [hp] at h
      by_cases hc : a.cost ≤ m.cost
      · rw [if_pos hc] at h
        cases h
        rcases List.mem_cons.mp hy with hya | hya
        · subst hya
          exact le_refl _
        · exact le_trans hc (ih hp y hya)
      · rw [if_neg hc] at h
        cases h
        rcases List.mem_cons.mp hy with hya | hya
        · subst hya
          exact le_of_lt (lt_of_not_le hc)
        · exact ih hp y hya

/-! ### Relaxation-step lemmas -/

theorem relaxEdges_cons_improve {e : Edge} {rest : List Edge} {cost : Int}
    {dist : List (Int × Int)} {heap : List State}
    (h : ∀ cur, alookup dist e.node_b_id = some cur → cost + e.weight < cur) :
    relaxEdges (e :: rest) cost dist heap =
      relaxEdges rest cost (ainsert dist e.node_b_id (cost + e.weight))
        (heap ++ [⟨cost + e.weight, e.node_b_id⟩]) := by
  rw [relaxEdges]
  cases hl : alookup dist e.node_b_id with
  | none => simp [hl]
  | some cur => simp [hl, h cur hl]

theorem relaxEdges_cons_keep {e : Edge} {rest : List Edge} {cost : Int}
    {dist : List (Int × Int)} {heap : List State} {cur : Int}
    (hl : alookup dist e.node_b_id = some cur) (h : ¬ cost + e.weight < cur) :
    relaxEdges (e :: rest) cost dist heap = relaxEdges rest cost dist heap := by
  rw [relaxEdges]
  simp [hl, h]

theorem relax_dist_le : ∀ (l : List Edge) (cost : Int) (dist : List (Int × Int))
    (heap : List State) (k v : Int), alookup dist k = some v →
    ∃ v2, alookup (relaxEdges l cost dist heap).1 k = some v2 ∧ v2 ≤ v := by
  intro l
  induction l with
  | nil =>
    intro cost dist heap k v h
    exact ⟨v, h, le_refl v⟩
  | cons e rest ih =>
    intro cost dist heap k v h
    cases hl : alookup dist e.node_b_id with
    | none =>
      rw [relaxEdges_cons_improve (fun cur hcur => by rw [hl] at hcur; cases hcur)]
      have hk : alookup (ainsert dist e.node_b_id (cost + e.weight)) k = some v := by
        rw [alookup_ainsert]
        by_cases hkb : k = e.node_b_id
        · subst hkb
          rw [hl] at h
          cases h
        · rw [if_neg hkb]
          exact h
      exact ih _ _ _ k v hk
    | some cur =>
      by_cases hlt : cost + e.weight < cur
      · rw [relaxEdges_cons_improve (fun c2 hc2 => by rw [hl] at hc2; cases hc2; exact hlt)]
        by_cases hkb : k = e.node_b_id
        · subst hkb
          rw [hl] at h
          cases h
          have hk : alookup (ainsert dist e.node_b_id (cost + e.weight)) e.node_b_id =
              some (cost + e.weight) := by
            rw [alookup_ainsert, if_pos rfl]
          obtain ⟨v2, hv2, hle⟩ := ih _ _ _ _ _ hk
          exact ⟨v2, hv2, le_trans hle (le_of_lt hlt)⟩
        · have hk : alookup (ainsert dist e.node_b_id (cost + e.weight)) k = some v := by
            rw [alookup_ainsert, if_neg hkb]
            exact h
          exact ih _ _ _ k v hk
      · rw [relaxEdges_cons_keep hl hlt]
        exact ih _ _ _ k v h

theorem relax_dist_provenance : ∀ (l : List Edge) (cost : Int)
    (dist : List (Int × Int)) (heap : List State) (k v2 : Int),
    alookup (relaxEdges l cost dist heap).1 k = some v2 →
    alookup dist k = some v2 ∨ ∃ e ∈ l, e.node_b_id = k ∧ v2 = cost + e.weight := by
  intro l
  induction l with
  | nil =>
    intro cost dist heap k v2 h
    exact Or.inl h
  | cons e rest ih =>
    intro cost dist heap k v2 h
    cases hl : alookup dist e.node_b_id with
    | none =>
      rw [relaxEdges_cons_improve (fun cur hcur => by rw [hl] at hcur; cases hcur)] at h
      rcases ih _ _ _ _ _ h with h2 | ⟨e2, he2, hb2, hv2⟩
      · rw [alookup_ainsert] at h2
        by_cases hkb : k = e.node_b_id
        · rw [if_pos hkb] at h2
          cases h2
          exact Or.inr ⟨e, List.mem_cons_self e rest, hkb.symm, rfl⟩
        · rw [if_neg hkb] at h2
          exact Or.inl h2
      · exact Or.inr ⟨e2, List.mem_cons_of_mem e he2, hb2, hv2⟩
    | some cur =>
      by_cases hlt : cost + e.weight < cur
      · rw [relaxEdges_cons_improve
          (fun c2 hc2 => by rw [hl] at hc2; cases hc2; exact hlt)] at h
        rcases ih _ _ _ _ _ h with h2 | ⟨e2, he2, hb2, hv2⟩
        · rw [alookup_ainsert] at h2
          by_cases hkb : k = e.node_b_id
          · rw [if_pos hkb] at h2
            cases h2
            exact Or.inr ⟨e, List.mem_cons_self e rest, hkb.symm, rfl⟩
          · rw [if_neg hkb] at h2
            exact Or.inl h2
        · exact Or.inr ⟨e2, List.mem_cons_of_mem e he2, hb2, hv2⟩
      · rw [relaxEdges_cons_keep hl hlt] at h
        rcases ih _ _ _ _ _ h with h2 | ⟨e2, he2, hb2, hv2⟩
        · exact Or.inl h2
        · exact Or.inr ⟨e2, List.mem_cons_of_mem e he2, hb2, hv2⟩

theorem relax_relaxed : ∀ (l : List Edge) (cost : Int) (dist : List (Int × Int))
    (heap : List State), ∀ e ∈ l,
    ∃ d, alookup (relaxEdges l cost dist heap).1 e.node_b_id = some d ∧
      d ≤ cost + e.weight := by
  intro l
  induction l with
  | nil =>
    intro cost dist heap e he
    simp at he
  | cons e0 rest ih =>
    intro cost dist heap e he
    rcases List.mem_cons.mp he with rfl | he2
    · cases hl : alookup dist e.node_b_id with
      | none =>
        rw [relaxEdges_cons_improve (fun cur hcur => by rw [hl] at hcur; cases hcur)]
        have hk : alookup (ainsert dist e.node_b_id (cost + e.weight)) e.node_b_id =
            some (cost + e.weight) := by
          rw [alookup_ainsert, if_pos rfl]
        obtain ⟨v2, hv2, hle⟩ := relax_dist_le _ _ _ _ _ _ hk
        exact ⟨v2, hv2, hle⟩
      | some cur =>
        by_cases hlt : cost + e.weight < cur
        · rw [relaxEdges_cons_improve
            (fun c2 hc2 => by rw [hl] at hc2; cases hc2; exact hlt)]
          have hk : alookup (ainsert dist e.node_b_id (cost + e.weight)) e.node_b_id =
              some (cost + e.weight) := by
            rw [alookup_ainsert, if_pos rfl]
          obtain ⟨v2, hv2, hle⟩ := relax_dist_le _ _ _ _ _ _ hk
          exact ⟨v2, hv2, hle⟩
        · rw [relaxEdges_cons_keep hl hlt]
          obtain ⟨v2, hv2, hle⟩ := relax_dist_le _ _ _ _ _ _ hl
          exact ⟨v2, hv2, le_trans hle (not_lt.mp hlt)⟩
    · cases hl : alookup dist e0.node_b_id with
      | none =>
        rw [relaxEdges_cons_improve (fun cur hcur => by rw [hl] at hcur; cases hcur)]
        exact ih _ _ _ e he2
      | some cur =>
        by_cases hlt : cost + e0.weight < cur
        · rw [relaxEdges_cons_improve
            (fun c2 hc2 => by rw [hl] at hc2; cases hc2; exact hlt)]
          exact ih _ _ _ e he2
        · rw [relaxEdges_cons_keep hl hlt]
          exact ih _ _ _ e he2

theorem relax_heap_mono : ∀ (l : List Edge) (cost : Int) (dist : List (Int × Int))
    (heap : List State) (x : State), x ∈ heap →
    x ∈ (relaxEdges l cost dist heap).2 := by
  intro l
  induction l with
  | nil =>
    intro cost dist heap x hx
    exact hx
  | cons e rest ih =>
    intro cost dist heap x hx
    cases hl : alookup dist e.node_b_id with
    | none =>
      rw [relaxEdges_cons_improve (fun cur hcur => by rw [hl] at hcur; cases hcur)]
      exact ih _ _ _ x (List.mem_append_left _ hx)
    | some cur =>
      by_cases hlt : cost + e.weight < cur
      · rw [relaxEdges_cons_improve
          (fun c2 hc2 => by rw [hl] at hc2; cases hc2; exact hlt)]
        exact ih _ _ _ x (List.mem_append_left _ hx)
      · rw [relaxEdges_cons_keep hl hlt]
        exact ih _ _ _ x hx

theorem relax_heap_provenance : ∀ (l : List Edge) (cost : Int)
    (dist : List (Int × Int)) (heap : List State) (x : State),
    x ∈ (relaxEdges l cost dist heap).2 →
    x ∈ heap ∨ ∃ e ∈ l, x = ⟨cost + e.weight, e.node_b_id⟩ := by
  intro l
  induction l with
  | nil =>
    intro cost dist heap x hx
    exact Or.inl hx
  | cons e rest ih =>
    intro cost dist heap x hx
    have hstep : ∀ (dist2 : List (Int × Int)),
        x ∈ (relaxEdges rest cost dist2 (heap ++ [⟨cost + e.weight, e.node_b_id⟩])).2 →
        x ∈ heap ∨ ∃ e2 ∈ e :: rest, x = ⟨cost + e2.weight, e2.node_b_id⟩ := by
      intro dist2 hx2
      rcases ih _ _ _ _ hx2 with h2 | ⟨e2, he2, hv⟩
      · rcases List.mem_append.mp h2 with h3 | h3
        · exact Or.inl h3
        · exact Or.inr ⟨e, List.mem_cons_self e rest, List.mem_singleton.mp h3⟩
      · exact Or.inr ⟨e2, List.mem_cons_of_mem e he2, hv⟩
    cases hl : alookup dist e.node_b_id with
    | none =>
      rw [relaxEdges_cons_improve (fun cur hcur => by rw [hl] at hcur; cases hcur)] at hx
      exact hstep _ hx
    | some cur =>
      by_cases hlt : cost + e.weight < cur
      · rw [relaxEdges_cons_improve
          (fun c2 hc2 => by rw [hl] at hc2; cases hc2; exact hlt)] at hx
        exact hstep _ hx
      · rw [relaxEdges_cons_keep hl hlt] at hx
        rcases ih _ _ _ _ hx with h2 | ⟨e2, he2, hv⟩
        · exact Or.inl h2
        · exact Or.inr ⟨e2, List.mem_cons_of_mem e he2, hv⟩

theorem relax_pending : ∀ (l : List Edge) (cost : Int) (dist : List (Int × Int))
    (heap : List State) (k v2 : Int),
    alookup (relaxEdges l cost dist heap).1 k = some v2 →
    alookup dist k = some v2 ∨ (⟨v2, k⟩ : State) ∈ (relaxEdges l cost dist heap).2 := by
  intro l
  induction l with
  | nil =>
    intro cost dist heap k v2 h
    exact Or.inl h
  | cons e rest ih =>
    intro cost dist heap k v2 h
    have hstep : ∀ hrw : relaxEdges (e :: rest) cost dist heap =
          relaxEdges rest cost (ainsert dist e.node_b_id (cost + e.weight))
            (heap ++ [⟨cost + e.weight, e.node_b_id⟩]), True → 
        alookup dist k = some v2 ∨
          (⟨v2, k⟩ : State) ∈ (relaxEdges (e :: rest) cost dist heap).2 := by
      intro hrw _
      rw [hrw] at h ⊢
      rcases ih _ _ _ _ _ h with h2 | h2
      · rw [alookup_ainsert] at h2
        by_cases hkb : k = e.node_b_id
        · rw [if_pos hkb] at h2
          cases h2
          subst hkb
          exact Or.inr (relax_heap_mono _ _ _ _ _
            (List.mem_append_right _ (List.mem_singleton.mpr rfl)))
        · rw [if_neg hkb] at h2
          exact Or.inl h2
      · exact Or.inr h2
    cases hl : alookup dist e.node_b_id with
    | none =>
      exact hstep (relaxEdges_cons_improve
        (fun cur hcur => by rw [hl] at hcur; cases hcur)) trivial
    | some cur =>
      by_cases hlt : cost + e.weight < cur
      · exact hstep (relaxEdges_cons_improve
          (fun c2 hc2 => by rw [hl] at hc2; cases hc2; exact hlt)) trivial
      · rw [relaxEdges_cons_keep hl hlt] at h ⊢
        exact ih _ _ _ _ _ h

theorem inv_init (E : List (Int × List Edge)) (s t : Int) :
    Inv E s t (fun _ => False) (ainsert [] s 0) [⟨0, s⟩] := by
  have hl : ∀ (v : Int) (d : Int),
      alookup (ainsert ([] : List (Int × Int)) s 0) v = some d → v = s ∧ d = 0 := by
    intro v d h
    rw [alookup_ainsert] at h
    by_cases hv : v = s
    · rw [if_pos hv] at h
      cases h
      exact ⟨hv, rfl⟩
    · rw [if_neg hv] at h
      simp [alookup] at h
  refine ⟨?_, ?_, ?_, ?_, ?_, ?_, ?_, ?_⟩
  · intro v d h
    obtain ⟨hv, hd⟩ := hl v d h
    subst hv
    subst hd
    exact Reaches.refl v
  · intro x hx
    rcases List.mem_singleton.mp hx with rfl
    exact Reaches.refl s
  · intro x hx
    rcases List.mem_singleton.mp hx with rfl
    refine ⟨0, ?_, le_refl 0⟩
    rw [alookup_ainsert, if_pos rfl]
  · intro v hv
    cases hv
  · intro v hv
    cases hv
  · intro v d h
    obtain ⟨hv, hd⟩ := hl v d h
    subst hv
    subst hd
    exact Or.inr (List.mem_singleton.mpr rfl)
  · refine ⟨0, ?_, le_refl 0⟩
    rw [alookup_ainsert, if_pos rfl]
  · intro h
    cases h

/-- Frontier covering: a walk ending outside the processed set is witnessed by
a heap entry whose cost is bounded by the start bound plus the walk cost. -/
theorem Inv.cover {E : List (Int × List Edge)} {s t : Int} {P : Int → Prop}
    {dist : List (Int × Int)} {heap : List State}
    (inv : Inv E s t P dist heap) (hE : nonnegWeights E) :
    ∀ (x v c : Int), Reaches E x v c → ¬ P v →
    ∀ b : Int, (∃ dx, alookup dist x = some dx ∧ dx ≤ b) →
    ∃ y ∈ heap, y.cost ≤ b + c := by
  intro x v c hwalk
  induction hwalk with
  | refl z =>
    intro hv b hx
    obtain ⟨dx, hdx, hdxb⟩ := hx
    rcases inv.pending z dx hdx with hz | hz
    · exact absurd hz hv
    · exact ⟨⟨dx, z⟩, hz, by simpa using hdxb⟩
  | @step u v2 c2 e he h ih =>
    intro hv b hx
    obtain ⟨dx, hdx, hdxb⟩ := hx
    by_cases hP : P u
    · obtain ⟨dv, du, hdv, hdu, hle⟩ := inv.done_relaxed u hP e he
      rw [hdx] at hdv
      cases hdv
      have hdu_le : du ≤ b + e.weight := le_trans hle (by linarith)
      obtain ⟨y, hy, hyc⟩ := ih hv (b + e.weight) ⟨du, hdu, hdu_le⟩
      exact ⟨y, hy, by linarith⟩
    · rcases inv.pending u dx hdx with hu | hu
      · exact absurd hu hP
      · have h2 : 0 ≤ c2 := Reaches.nonneg hE h
        have h3 : 0 ≤ e.weight := nonneg_edgesAt hE he
        exact ⟨⟨dx, u⟩, hu, by linarith⟩

/-- A popped heap entry whose position is not processed carries a cost no
larger than any walk cost from the source to that position. -/
theorem Inv.pop_not_done_min {E : List (Int × List Edge)} {s t : Int}
    {P : Int → Prop} {dist : List (Int × Int)} {heap : List State}
    (inv : Inv E s t P dist heap) (hE : nonnegWeights E)
    {x : State} {rest : List State} (hpop : popMin heap = some (x, rest))
    (hP : ¬ P x.position) {c : Int} (hreach : Reaches E s x.position c) :
    x.cost ≤ c := by
  obtain ⟨ds, hds, hds0⟩ := inv.source_le
  obtain ⟨y, hy, hyc⟩ := inv.cover hE s x.position c hreach hP 0 ⟨ds, hds, hds0⟩
  have := popMin_min hpop y hy
  linarith

/-- A non-stale pop (its cost equals the recorded distance of its position)
carries the minimum walk cost from the source to its position. -/
theorem Inv.pop_nonstale_min {E : List (Int × List Edge)} {s t : Int}
    {P : Int → Prop} {dist : List (Int × Int)} {heap : List State}
    (inv : Inv E s t P dist heap) (hE : nonnegWeights E)
    {x : State} {rest : List State} (hpop : popMin heap = some (x, rest))
    (hx : alookup dist x.position = some x.cost) {c : Int}
    (hreach : Reaches E s x.position c) : x.cost ≤ c := by
  by_cases hP : P x.position
  · obtain ⟨d, hd, hmin⟩ := inv.done_min _ hP
    rw [hx] at hd
    cases hd
    exact hmin c hreach
  · exact inv.pop_not_done_min hE hpop hP hreach

/-- Skipping a stale pop preserves the invariant. -/
theorem Inv.skip {E : List (Int × List Edge)} {s t : Int} {P : Int → Prop}
    {dist : List (Int × Int)} {heap : List State}
    (inv : Inv E s t P dist heap) {x : State} {rest : List State}
    (hpop : popMin heap = some (x, rest)) {cur : Int}
    (hcur : alookup dist x.position = some cur) (hstale : cur < x.cost) :
    Inv E s t P dist rest := by
  refine ⟨inv.dist_sound, ?_, ?_, inv.done_min, inv.done_relaxed, ?_, inv.source_le,
    inv.target_not_done⟩
  · intro y hy
    exact inv.heap_sound y (popMin_mem_rest hpop hy)
  · intro y hy
    exact inv.heap_ge y (popMin_mem_rest hpop hy)
  · intro v d h
    rcases inv.pending v d h with hP | hmem
    · exact Or.inl hP
    · rcases popMin_cases hpop hmem with heq | hmem2
      · exfalso
        have hv : v = x.position := congrArg State.position heq
        have hd : d = x.cost := congrArg State.cost heq
        subst hv
        rw [hcur] at h
        cases h
        subst hd
        exact absurd hstale (lt_irrefl _)
      · exact Or.inr hmem2

/-- Processing a non-stale pop of a non-target position preserves the
invariant, with the popped position added to the processed set. -/
theorem Inv.relax {E : List (Int × List Edge)} {s t : Int} {P : Int → Prop}
    {dist : List (Int × Int)} {heap : List State}
    (inv : Inv E s t P dist heap) (hE : nonnegWeights E)
    {x : State} {rest : List State} (hpop : popMin heap = some (x, rest))
    (hx : alookup dist x.position = some x.cost) (hxt : x.position ≠ t) :
    Inv E s t (fun v => P v ∨ v = x.position)
      (relaxEdges (edgesAt E x.position) x.cost dist rest).1
      (relaxEdges (edgesAt E x.position) x.cost dist rest).2 := by
  have hreach_x : Reaches E s x.position x.cost := inv.heap_sound x (popMin_mem hpop)
  have hmin_x : ∀ c, Reaches E s x.position c → x.cost ≤ c :=
    fun c hc => inv.pop_nonstale_min hE hpop hx hc
  -- soundness of the new distance map
  have hsound2 : ∀ v d,
      alookup (relaxEdges (edgesAt E x.position) x.cost dist rest).1 v = some d →
      Reaches E s v d := by
    intro v d h
    rcases relax_dist_provenance _ _ _ _ _ _ h with hold | ⟨e, he, hb, hv⟩
    · exact inv.dist_sound v d hold
    · subst hv
      subst hb
      exact Reaches.snoc e hreach_x he
  -- distances of processed positions cannot change (they are already minimal)
  have hdone_keep : ∀ v d, alookup dist v = some d →
      (∀ c, Reaches E s v c → d ≤ c) →
      alookup (relaxEdges (edgesAt E x.position) x.cost dist rest).1 v = some d := by
    intro v d hvd hmin
    obtain ⟨d2, hd2, hle⟩ := relax_dist_le _ _ _ _ _ _ hvd
    have hge : d ≤ d2 := hmin d2 (hsound2 v d2 hd2)
    have : d2 = d := le_antisymm hle hge
    rw [this] at hd2
    exact hd2
  have hx_keep : alookup (relaxEdges (edgesAt E x.position) x.cost dist rest).1
      x.position = some x.cost := hdone_keep _ _ hx hmin_x
  refine ⟨hsound2, ?_, ?_, ?_, ?_, ?_, ?_, ?_⟩
  · -- heap_sound
    intro y hy
    rcases relax_heap_provenance _ _ _ _ _ hy with h2 | ⟨e, he, hv⟩
    · exact inv.heap_sound y (popMin_mem_rest hpop h2)
    · subst hv
      exact Reaches.snoc e hreach_x he
  · -- heap_ge
    intro y hy
    rcases relax_heap_provenance _ _ _ _ _ hy with h2 | ⟨e, he, hv⟩
    · obtain ⟨d, hd, hle⟩ := inv.heap_ge y (popMin_mem_rest hpop h2)
      obtain ⟨d2, hd2, hle2⟩ := relax_dist_le _ _ _ _ _ _ hd
      exact ⟨d2, hd2, le_trans hle2 hle⟩
    · subst hv
      obtain ⟨d, hd, hle⟩ := relax_relaxed _ x.cost dist rest e he
      exact ⟨d, hd, hle⟩
  · -- done_min
    intro v hv
    rcases hv with hP | rfl
    · obtain ⟨d, hd, hmin⟩ := inv.done_min v hP
      exact ⟨d, hdone_keep v d hd hmin, hmin⟩
    · exact ⟨x.cost, hx_keep, hmin_x⟩
  · -- done_relaxed
    intro v hv e he
    rcases hv with hP | rfl
    · obtain ⟨dv, du, hdv, hdu, hle⟩ := inv.done_relaxed v hP e he
      have hdvmin : ∀ c, Reaches E s v c → dv ≤ c := by
        obtain ⟨d, hd, hmin⟩ := inv.done_min v hP
        rw [hdv] at hd
        cases hd
        exact hmin
      obtain ⟨du2, hdu2, hle2⟩ := relax_dist_le _ x.cost _ rest _ _ hdu
      exact ⟨dv, du2, hdone_keep v dv hdv hdvmin, hdu2, le_trans hle2 hle⟩
    · obtain ⟨du, hdu, hle⟩ := relax_relaxed _ x.cost dist rest e he
      exact ⟨x.cost, du, hx_keep, hdu, hle⟩
  · -- pending
    intro v d h
    rcases relax_pending _ _ _ _ _ _ h with hold | hmem
    · rcases inv.pending v d hold with hP | hmem2
      · exact Or.inl (Or.inl hP)
      · rcases popMin_cases hpop hmem2 with heq | hmem3
        · exact Or.inl (Or.inr (congrArg State.position heq))
        · exact Or.inr (relax_heap_mono _ _ _ _ _ hmem3)
    · exact Or.inr hmem
  · -- source_le
    obtain ⟨ds, hds, hds0⟩ := inv.source_le
    obtain ⟨ds2, hds2, hle⟩ := relax_dist_le _ _ _ _ _ _ hds
    exact ⟨ds2, hds2, le_trans hle hds0⟩
  · -- target_not_done
    intro h
    rcases h with hP | heq
    · exact inv.target_not_done hP
    · exact hxt heq.symm

/-- Partial correctness of the loop: whatever value it returns under any
invariant-satisfying state is either the minimum walk cost to the target or the
sentinel together with unreachability of the target. -/
theorem dijkstraLoop_sound (E : List (Int × List Edge)) (hE : nonnegWeights E)
    (s t : Int) :
    ∀ (fuel : Nat) (dist : List (Int × Int)) (heap : List State) (P : Int → Prop),
      Inv E s t P dist heap →
      ∀ v, dijkstraLoop E t fuel dist heap = some v →
        (Reaches E s t v ∧ ∀ c, Reaches E s t c → v ≤ c) ∨
          (v = i32Max ∧ Unreachable E s t) := by
  intro fuel
  induction fuel with
  | zero =>
    intro dist heap P inv v h
    simp [dijkstraLoop] at h
  | succ n ih =>
    intro dist heap P inv v h
    rw [dijkstraLoop] at h
    cases hpop : popMin heap with
    | none =>
      simp only [hpop] at h
      cases h
      right
      refine ⟨rfl, ?_⟩
      intro c hc
      obtain ⟨ds, hds, hds0⟩ := inv.source_le
      obtain ⟨y, hy, _⟩ := inv.cover hE s t c hc inv.target_not_done 0 ⟨ds, hds, hds0⟩
      rw [popMin_nil_of_eq_none hpop] at hy
      simp at hy
    | some pr =>
      obtain ⟨x, rest⟩ := pr
      simp only [hpop] at h
      by_cases hto : x.position = t
      · simp only [if_pos hto] at h
        cases h
        left
        constructor
        · exact hto ▸ inv.heap_sound x (popMin_mem hpop)
        · intro c hc
          exact inv.pop_not_done_min hE hpop
            (fun hP => inv.target_not_done (hto ▸ hP)) (hto ▸ hc)
      · simp only [if_neg hto] at h
        cases hl : alookup dist x.position with
        | none =>
          obtain ⟨d, hd, _⟩ := inv.heap_ge x (popMin_mem hpop)
          rw [hl] at hd
          cases hd
        | some cur =>
          simp only [hl] at h
          by_cases hstale : cur < x.cost
          · simp only [if_pos hstale] at h
            exact ih dist rest P (inv.skip hpop hl hstale) v h
          · simp only [if_neg hstale] at h
            have hcur_eq : cur = x.cost := by
              obtain ⟨d, hd, hle⟩ := inv.heap_ge x (popMin_mem hpop)
              rw [hl] at hd
              cases hd
              exact le_antisymm hle (not_lt.mp hstale)
            subst hcur_eq
            exact ih _ _ _ (inv.relax hE hpop hl hto) v h

theorem sumNatDist_ainsert_existing :
    ∀ (dist : List (Int × Int)) (k vold vnew : Int), alookup dist k = some vold →
    sumNatDist (ainsert dist k vnew) + vold.toNat = sumNatDist dist + vnew.toNat := by
  intro dist
  induction dist with
  | nil =>
    intro k vold vnew h
    simp [alookup] at h
  | cons p rest ih =>
    intro k vold vnew h
    obtain ⟨k0, v0⟩ := p
    by_cases hk : k0 = k
    · subst hk
      simp only [alookup, if_pos] at h
      cases h
      simp [ainsert, sumNatDist]
      omega
    · simp only [alookup, if_neg hk] at h
      simp only [ainsert, if_neg hk]
      have := ih k vold vnew h
      simp only [sumNatDist, List.map_cons, List.sum_cons] at this ⊢
      omega

theorem alookup_isSome_ainsert {α : Type} (dist : List (Int × α)) (k : Int)
    (v : α) (j : Int) :
    (alookup (ainsert dist k v) j).isSome =
      if j = k then true else (alookup dist j).isSome := by
  rw [alookup_ainsert]
  by_cases hj : j = k <;> simp [hj]

theorem filter_length_mono {α : Type} (l : List α) (p q : α → Bool)
    (hpq : ∀ x, q x = true → p x = true) :
    (l.filter q).length ≤ (l.filter p).length := by
  induction l with
  | nil => simp
  | cons a as ih =>
    cases hq : q a with
    | false =>
      cases hp : p a with
      | false =>
        simp [List.filter_cons, hq, hp]
        omega
      | true =>
        simp [List.filter_cons, hq, hp]
        omega
    | true =>
      have hp := hpq a hq
      simp [List.filter_cons, hq, hp]
      omega

theorem filter_length_strict {α : Type} (l : List α) (p q : α → Bool)
    (hpq : ∀ x, q x = true → p x = true) :
    ∀ k ∈ l, p k = true → q k = false →
    (l.filter q).length < (l.filter p).length := by
  induction l with
  | nil =>
    intro k hk
    simp at hk
  | cons a as ih =>
    intro k hk hpk hqk
    rcases List.mem_cons.mp hk with rfl | hk2
    · have hmono := filter_length_mono as p q hpq
      simp [List.filter_cons, hqk, hpk]
      omega
    · have hrec := ih k hk2 hpk hqk
      cases hq : q a with
      | false =>
        cases hp : p a with
        | false =>
          simp [List.filter_cons, hq, hp]
          omega
        | true =>
          simp [List.filter_cons, hq, hp]
          omega
      | true =>
        have hp := hpq a hq
        simp [List.filter_cons, hq, hp]
        omega

theorem mem_allTargets {E : List (Int × List Edge)} {v : Int} {e : Edge}
    (he : e ∈ edgesAt E v) : e.node_b_id ∈ allTargets E := by
  unfold edgesAt at he
  cases hl : alookup E v with
  | none =>
    rw [hl] at he
    simp at he
  | some l =>
    rw [hl] at he
    have hmem : (v, l) ∈ E := alookup_mem hl
    unfold allTargets
    rw [List.mem_flatten]
    refine ⟨l.map (fun e => e.node_b_id), ?_, ?_⟩
    · exact List.mem_map.mpr ⟨(v, l), hmem, rfl⟩
    · exact List.mem_map.mpr ⟨e, he, rfl⟩

/-- Each relaxation pass either changes nothing, records a distance for a
previously unseen arc head, or keeps the key set and strictly decreases the
distance sum. -/
theorem relax_progress : ∀ (l : List Edge) (cost : Int) (dist : List (Int × Int))
    (heap : List State), 0 ≤ cost → (∀ e ∈ l, 0 ≤ e.weight) →
    ((relaxEdges l cost dist heap).1 = dist ∧ (relaxEdges l cost dist heap).2 = heap) ∨
    (∃ e ∈ l, alookup dist e.node_b_id = none ∧
      (alookup (relaxEdges l cost dist heap).1 e.node_b_id).isSome = true) ∨
    ((∀ j, (alookup (relaxEdges l cost dist heap).1 j).isSome =
        (alookup dist j).isSome) ∧
      sumNatDist (relaxEdges l cost dist heap).1 < sumNatDist dist) := by
  intro l
  induction l with
  | nil =>
    intro cost dist heap _ _
    exact Or.inl ⟨rfl, rfl⟩
  | cons e rest ih =>
    intro cost dist heap hc hw
    have hw_rest : ∀ e2 ∈ rest, 0 ≤ e2.weight :=
      fun e2 h2 => hw e2 (List.mem_cons_of_mem e h2)
    have hw_e : 0 ≤ e.weight := hw e (List.mem_cons_self e rest)
    cases hl : alookup dist e.node_b_id with
    | none =>
      rw [relaxEdges_cons_improve (fun cur hcur => by rw [hl] at hcur; cases hcur)]
      refine Or.inr (Or.inl ⟨e, List.mem_cons_self e rest, hl, ?_⟩)
      have hk : alookup (ainsert dist e.node_b_id (cost + e.weight)) e.node_b_id =
          some (cost + e.weight) := by
        rw [alookup_ainsert, if_pos rfl]
      obtain ⟨v2, hv2, _⟩ := relax_dist_le _ _ _ _ _ _ hk
      rw [hv2]
      rfl
    | some cur =>
      by_cases hlt : cost + e.weight < cur
      · rw [relaxEdges_cons_improve
          (fun c2 hc2 => by rw [hl] at hc2; cases hc2; exact hlt)]
        have hkeys1 : ∀ j,
            (alookup (ainsert dist e.node_b_id (cost + e.weight)) j).isSome =
              (alookup dist j).isSome := by
          intro j
          rw [alookup_isSome_ainsert]
          by_cases hj : j = e.node_b_id
          · rw [if_pos hj, hj, hl]
            rfl
          · rw [if_neg hj]
        have hsum1 : sumNatDist (ainsert dist e.node_b_id (cost + e.weight)) <
            sumNatDist dist := by
          have := sumNatDist_ainsert_existing dist e.node_b_id cur (cost + e.weight) hl
          have h0 : 0 ≤ cost + e.weight := add_nonneg hc hw_e
          omega
        rcases ih cost (ainsert dist e.node_b_id (cost + e.weight))
            (heap ++ [⟨cost + e.weight, e.node_b_id⟩]) hc hw_rest with
          ⟨hdeq, hheq⟩ | ⟨e2, he2, hnone2, hsome2⟩ | ⟨hkeys2, hsum2⟩
        · refine Or.inr (Or.inr ⟨?_, ?_⟩)
          · intro j
            rw [hdeq]
            exact hkeys1 j
          · rw [hdeq]
            exact hsum1
        · refine Or.inr (Or.inl ⟨e2, List.mem_cons_of_mem e he2, ?_, hsome2⟩)
          rw [alookup_ainsert] at hnone2
          by_cases hj : e2.node_b_id = e.node_b_id
          · rw [if_pos hj] at hnone2
            cases hnone2
          · rw [if_neg hj] at hnone2
            exact hnone2
        · refine Or.inr (Or.inr ⟨?_, ?_⟩)
          · intro j
            rw [hkeys2 j]
            exact hkeys1 j
          · exact lt_trans hsum2 hsum1
      · rw [relaxEdges_cons_keep hl hlt]
        rcases ih cost dist heap hc hw_rest with
          ⟨hdeq, hheq⟩ | ⟨e2, he2, hnone2, hsome2⟩ | ⟨hkeys2, hsum2⟩
        · exact Or.inl ⟨hdeq, hheq⟩
        · exact Or.inr (Or.inl ⟨e2, List.mem_cons_of_mem e he2, hnone2, hsome2⟩)
        · exact Or.inr (Or.inr ⟨hkeys2, hsum2⟩)

/-- Termination: with non-negative weights the loop reaches a result for some
fuel, from any state with non-negative recorded distances and heap costs.  The
lexicographic measure is (unseen arc heads, distance sum, heap length). -/
theorem dijkstra_terminates_aux (E : List (Int × List Edge)) (hE : nonnegWeights E)
    (t : Int) :
    ∀ (n1 n2 n3 : Nat) (dist : List (Int × Int)) (heap : List State),
      unsetCount E dist = n1 → sumNatDist dist = n2 → heap.length = n3 →
      (∀ k v, alookup dist k = some v → 0 ≤ v) →
      (∀ x ∈ heap, 0 ≤ x.cost) →
      ∃ fuel v, dijkstraLoop E t fuel dist heap = some v := by
  intro n1
  induction n1 using Nat.strong_induction_on with
  | _ n1 ih1 =>
  intro n2
  induction n2 using Nat.strong_induction_on with
  | _ n2 ih2 =>
  intro n3
  induction n3 using Nat.strong_induction_on with
  | _ n3 ih3 =>
  intro dist heap h1 h2 h3 hd hh
  cases hpop : popMin heap with
  | none =>
    refine ⟨1, i32Max, ?_⟩
    rw [dijkstraLoop]
    simp [hpop]
  | some pr =>
    obtain ⟨x, rest⟩ := pr
    by_cases hto : x.position = t
    · refine ⟨1, x.cost, ?_⟩
      rw [dijkstraLoop]
      simp [hpop, hto]
    · have hrest_len : rest.length < n3 := by
        have := popMin_length hpop
        omega
      have hrest_pos : ∀ y ∈ rest, 0 ≤ y.cost :=
        fun y hy => hh y (popMin_mem_rest hpop hy)
      have hcost0 : 0 ≤ x.cost := hh x (popMin_mem hpop)
      have hw : ∀ e ∈ edgesAt E x.position, 0 ≤ e.weight :=
        fun e he => nonneg_edgesAt hE he
      -- the recursive state after relaxing
      have hrelax : ∃ fuel v, dijkstraLoop E t fuel
          (relaxEdges (edgesAt E x.position) x.cost dist rest).1
          (relaxEdges (edgesAt E x.position) x.cost dist rest).2 = some v := by
        have hd2 : ∀ k v,
            alookup (relaxEdges (edgesAt E x.position) x.cost dist rest).1 k =
              some v → 0 ≤ v := by
          intro k v h
          rcases relax_dist_provenance _ _ _ _ _ _ h with hold | ⟨e, he, hb, hv⟩
          · exact hd k v hold
          · subst hv
            exact add_nonneg hcost0 (hw e he)
        have hh2 : ∀ y ∈ (relaxEdges (edgesAt E x.position) x.cost dist rest).2,
            0 ≤ y.cost := by
          intro y hy
          rcases relax_heap_provenance _ _ _ _ _ hy with h2 | ⟨e, he, hv⟩
          · exact hrest_pos y h2
          · subst hv
            exact add_nonneg hcost0 (hw e he)
        rcases relax_progress (edgesAt E x.position) x.cost dist rest hcost0 hw with
          ⟨hdeq, hheq⟩ | ⟨e, he, hnone, hsome⟩ | ⟨hkeys, hsum⟩
        · rw [hdeq, hheq]
          exact ih3 rest.length hrest_len dist rest h1 h2 rfl hd hrest_pos
        · have hlt : unsetCount E
              (relaxEdges (edgesAt E x.position) x.cost dist rest).1 < n1 := by
            rw [← h1]
            apply filter_length_strict (allTargets E) _ _ ?_ e.node_b_id
              (mem_allTargets he) (by rw [hnone]; rfl) ?_
            · intro j hj
              cases hlj : alookup dist j with
              | none => rfl
              | some v =>
                obtain ⟨v2, hv2, _⟩ := relax_dist_le (edgesAt E x.position)
                  x.cost dist rest j v hlj
                rw [hv2] at hj
                cases hj
            · cases hlj : alookup
                (relaxEdges (edgesAt E x.position) x.cost dist rest).1
                e.node_b_id with
              | none =>
                rw [hlj] at hsome
                cases hsome
              | some v => rfl
          exact ih1 _ hlt _ _ _ _ rfl rfl rfl hd2 hh2
        · have huc : unsetCount E
              (relaxEdges (edgesAt E x.position) x.cost dist rest).1 = n1 := by
            rw [← h1]
            unfold unsetCount
            congr 1
            apply List.filter_congr
            intro j _
            have := hkeys j
            cases hl2 : alookup
                (relaxEdges (edgesAt E x.position) x.cost dist rest).1 j with
            | none =>
              rw [hl2] at this
              cases hlj : alookup dist j with
              | none => rfl
              | some v =>
                rw [hlj] at this
                cases this
            | some v =>
              rw [hl2] at this
              cases hlj : alookup dist j with
              | none =>
                rw [hlj] at this
                cases this
              | some v2 => rfl
          have hsum2 : sumNatDist
              (relaxEdges (edgesAt E x.position) x.cost dist rest).1 < n2 := by
            omega
          exact ih2 _ hsum2 _ _ _ huc rfl rfl hd2 hh2
      cases hl : alookup dist x.position with
      | none =>
        obtain ⟨fuel, v, hrun⟩ := hrelax
        refine ⟨fuel + 1, v, ?_⟩
        rw [dijkstraLoop]
        simp only [hpop, if_neg hto, hl]
        exact hrun
      | some cur =>
        by_cases hstale : cur < x.cost
        · obtain ⟨fuel, v, hrun⟩ := ih3 rest.length hrest_len dist rest h1 h2 rfl
            hd hrest_pos
          refine ⟨fuel + 1, v, ?_⟩
          rw [dijkstraLoop]
          simp only [hpop, if_neg hto, hl, if_pos hstale]
          exact hrun
        · obtain ⟨fuel, v, hrun⟩ := hrelax
          refine ⟨fuel + 1, v, ?_⟩
          rw [dijkstraLoop]
          simp only [hpop, if_neg hto, hl, if_neg hstale]
          exact hrun

/-- Full characterization: with non-negative weights `shortest_path` terminates
and returns the minimum walk cost when the target is reachable, and the
sentinel exactly when it is not. -/
theorem shortest_path_spec {g : Graph} (hE : nonnegWeights g.edges) (s t : Int) :
    ∃ v, Returns g s t v ∧
      ((Reaches g.edges s t v ∧ ∀ c, Reaches g.edges s t c → v ≤ c) ∨
        (v = i32Max ∧ Unreachable g.edges s t)) := by
  have hd : ∀ (k v : Int), alookup (ainsert ([] : List (Int × Int)) s 0) k = some v →
      0 ≤ v := by
    intro k v h
    rw [alookup_ainsert] at h
    by_cases hk : k = s
    · rw [if_pos hk] at h
      cases h
      exact le_refl 0
    · rw [if_neg hk] at h
      simp [alookup] at h
  have hh : ∀ x ∈ ([⟨0, s⟩] : List State), 0 ≤ x.cost := by
    intro x hx
    rcases List.mem_singleton.mp hx with rfl
    exact le_refl 0
  obtain ⟨fuel, v, hrun⟩ := dijkstra_terminates_aux g.edges hE t _ _ _
    (ainsert [] s 0) [⟨0, s⟩] rfl rfl rfl hd hh
  refine ⟨v, ⟨fuel, hrun⟩, ?_⟩
  exact dijkstraLoop_sound g.edges hE s t fuel _ _ _ (inv_init g.edges s t) v hrun

/-- Claim C1: for non-negative weights, whenever some walk connects `s` to
`t`, `shortest_path` returns the minimum total weight over all walks (and
nothing else): the early return on the first pop of the target yields the
optimal cost. -/
theorem shortest_path_computes_min_dist {g : Graph} (hE : nonnegWeights g.edges)
    {s t c0 : Int} (hreach : Reaches g.edges s t c0) :
    ∃ d, IsMinDist g.edges s t d ∧ Returns g s t d ∧
      ∀ v, Returns g s t v → v = d := by
  obtain ⟨v, hret, hcase⟩ := shortest_path_spec hE s t
  rcases hcase with ⟨h1, h2⟩ | ⟨_, hunr⟩
  · exact ⟨v, ⟨h1, h2⟩, hret, fun w hw => Returns_unique hw hret⟩
  · exact absurd hreach (hunr c0)

theorem shortest_path_computes_min_dist_witness :
    ∃ d, IsMinDist gTri.edges 1 3 d ∧ Returns gTri 1 3 d ∧
      ∀ v, Returns gTri 1 3 v → v = d := by
  have h1 : (⟨1, 2, 4⟩ : Edge) ∈ edgesAt gTri.edges 1 := by decide
  have h2 : (⟨2, 3, 5⟩ : Edge) ∈ edgesAt gTri.edges 2 := by decide
  have hreach : Reaches gTri.edges 1 3 9 := by
    have := Reaches.step (E := gTri.edges) ⟨1, 2, 4⟩ h1
      (Reaches.step ⟨2, 3, 5⟩ h2 (Reaches.refl 3))
    simpa using this
  exact shortest_path_computes_min_dist (by decide) hreach

/-- Claim C2 (amended with non-negative weights): when no walk leads from `s`
to `t`, `shortest_path` terminates with exactly `i32::MAX` and never yields
any other value. -/
theorem shortest_path_unreachable_sentinel {g : Graph}
    (hE : nonnegWeights g.edges) {s t : Int} (hunr : Unreachable g.edges s t) :
    Returns g s t i32Max ∧ ∀ v, Returns g s t v → v = i32Max := by
  obtain ⟨v, hret, hcase⟩ := shortest_path_spec hE s t
  rcases hcase with ⟨h1, _⟩ | ⟨heq, _⟩
  · exact absurd h1 (hunr v)
  · subst heq
    exact ⟨hret, fun w hw => Returns_unique hw hret⟩

theorem empty_graph_unreachable {u v c : Int} (huv : u ≠ v) :
    ¬ Reaches [] u v c := by
  intro h
  cases h with
  | refl => exact huv rfl
  | step e he h2 => simp [edgesAt, alookup] at he

theorem shortest_path_unreachable_sentinel_witness :
    Returns Graph.new 1 2 i32Max ∧ ∀ v, Returns Graph.new 1 2 v → v = i32Max :=
  shortest_path_unreachable_sentinel (by decide)
    (fun c => empty_graph_unreachable (by decide))

/-- Claim C5: on a graph built through the mutators with non-negative weights,
for every pair connected by some walk the query is symmetric: both directions
return one and the same value. -/
theorem shortest_path_symm {g : Graph} (hb : Built g) (hE : nonnegWeights g.edges)
    {s t c0 : Int} (hst : Reaches g.edges s t c0) :
    ∃ v, Returns g s t v ∧ Returns g t s v := by
  have hsym := symmInv_of_built hb
  obtain ⟨v1, hr1, hc1⟩ := shortest_path_spec hE s t
  obtain ⟨v2, hr2, hc2⟩ := shortest_path_spec hE t s
  rcases hc1 with ⟨hreach1, hmin1⟩ | ⟨_, hunr⟩
  · rcases hc2 with ⟨hreach2, hmin2⟩ | ⟨_, hunr⟩
    · have hle1 : v1 ≤ v2 := hmin1 v2 (hreach2.symm_of_symmInv hsym)
      have hle2 : v2 ≤ v1 := hmin2 v1 (hreach1.symm_of_symmInv hsym)
      have heq : v1 = v2 := le_antisymm hle1 hle2
      subst heq
      exact ⟨v1, hr1, hr2⟩
    · exact absurd (hst.symm_of_symmInv hsym) (hunr c0)
  · exact absurd hst (hunr c0)

theorem shortest_path_symm_witness :
    ∃ v, Returns gTri 1 3 v ∧ Returns gTri 3 1 v := by
  have h1 : (⟨1, 2, 4⟩ : Edge) ∈ edgesAt gTri.edges 1 := by decide
  have h2 : (⟨2, 3, 5⟩ : Edge) ∈ edgesAt gTri.edges 2 := by decide
  have hreach : Reaches gTri.edges 1 3 9 := by
    have := Reaches.step (E := gTri.edges) ⟨1, 2, 4⟩ h1
      (Reaches.step ⟨2, 3, 5⟩ h2 (Reaches.refl 3))
    simpa using this
  exact shortest_path_symm
    (Built.add_edge _ (Built.add_edge _ (Built.add_edge _ Built.new)))
    (by decide) hreach

/-- Claim C6 (amended with the spec's loading contract that path-cost sums do
not overflow, stated as: the minimum `a`-to-`c` walk cost, if any, fits below
the sentinel): the triangle inequality holds between any returned values. -/
theorem shortest_path_triangle {g : Graph} (hE : nonnegWeights g.edges)
    {a b c : Int} (hfit : ∀ d, IsMinDist g.edges a c d → d ≤ i32Max)
    {v1 v2 v3 : Int} (h1 : Returns g a b v1) (h2 : Returns g b c v2)
    (h3 : Returns g a c v3) : v3 ≤ v1 + v2 := by
  obtain ⟨w1, hr1, hc1⟩ := shortest_path_spec hE a b
  obtain ⟨w2, hr2, hc2⟩ := shortest_path_spec hE b c
  obtain ⟨w3, hr3, hc3⟩ := shortest_path_spec hE a c
  have e1 : v1 = w1 := Returns_unique h1 hr1
  have e2 : v2 = w2 := Returns_unique h2 hr2
  have e3 : v3 = w3 := Returns_unique h3 hr3
  subst e1
  subst e2
  subst e3
  have hv3max : v3 ≤ i32Max := by
    rcases hc3 with hmin3 | ⟨heq3, _⟩
    · exact hfit v3 hmin3
    · exact le_of_eq heq3
  rcases hc1 with ⟨hreach1, hmin1⟩ | ⟨heq1, _⟩
  · rcases hc2 with ⟨hreach2, hmin2⟩ | ⟨heq2, _⟩
    · have hconc : Reaches g.edges a c (v1 + v2) := hreach1.trans hreach2
      rcases hc3 with ⟨_, hmin3⟩ | ⟨_, hunr3⟩
      · exact hmin3 _ hconc
      · exact absurd hconc (hunr3 _)
    · have h10 : 0 ≤ v1 := Reaches.nonneg hE hreach1
      rw [heq2]
      have : (0 : Int) ≤ i32Max := by decide
      linarith [hv3max]
  · have h20 : 0 ≤ v2 := by
      rcases hc2 with ⟨hreach2, _⟩ | ⟨heq2, _⟩
      · exact Reaches.nonneg hE hreach2
      · rw [heq2]
        decide
    rw [heq1]
    linarith [hv3max]

theorem shortest_path_triangle_witness : (9 : Int) ≤ 4 + 5 := by
  have h1 : (⟨1, 2, 4⟩ : Edge) ∈ edgesAt gTri.edges 1 := by decide
  have h2 : (⟨2, 3, 5⟩ : Edge) ∈ edgesAt gTri.edges 2 := by decide
  have hreach : Reaches gTri.edges 1 3 9 := by
    have := Reaches.step (E := gTri.edges) ⟨1, 2, 4⟩ h1
      (Reaches.step ⟨2, 3, 5⟩ h2 (Reaches.refl 3))
    simpa using this
  have hfit : ∀ d, IsMinDist gTri.edges 1 3 d → d ≤ i32Max := by
    intro d hd
    exact le_trans (hd.2 9 hreach) (by decide)
  exact shortest_path_triangle (b := 2) (by decide) hfit
    ⟨2, by decide⟩ ⟨4, by decide⟩ ⟨3, by decide⟩

theorem nonnegWeights_pushEdge {k : Int} {e : Edge} (he : 0 ≤ e.weight) :
    ∀ E : List (Int × List Edge), nonnegWeights E →
    nonnegWeights (pushEdge E k e) := by
  intro E
  induction E with
  | nil =>
    intro _ p hp e2 he2
    rcases List.mem_singleton.mp hp with rfl
    rcases List.mem_singleton.mp he2 with rfl
    exact he
  | cons p0 rest ih =>
    intro hE p hp e2 he2
    by_cases h0 : p0.1 = k
    · rw [pushEdge, if_pos h0] at hp
      rcases List.mem_cons.mp hp with rfl | hp2
      · rcases List.mem_append.mp he2 with h3 | h3
        · exact hE p0 (List.mem_cons_self _ _) e2 h3
        · rcases List.mem_singleton.mp h3 with rfl
          exact he
      · exact hE p (List.mem_cons_of_mem _ hp2) e2 he2
    · rw [pushEdge, if_neg h0] at hp
      rcases List.mem_cons.mp hp with rfl | hp2
      · exact hE p (List.mem_cons_self _ _) e2 he2
      · exact ih (fun q hq => hE q (List.mem_cons_of_mem _ hq)) p hp2 e2 he2

theorem nonnegWeights_add_edge {g : Graph} (hE : nonnegWeights g.edges)
    {e : Edge} (he : 0 ≤ e.weight) : nonnegWeights (g.add_edge e).edges := by
  show nonnegWeights (pushEdge (pushEdge g.edges e.node_a_id e) e.node_b_id e.reverse)
  exact nonnegWeights_pushEdge (k := e.node_b_id) (e := e.reverse) he _
    (nonnegWeights_pushEdge (k := e.node_a_id) (e := e) he _ hE)

/-- Claim C9: adding an edge never increases a query result (under the claim's
own non-negativity and no-overflow provisos, the latter stated as: the new
minimum `s`-to-`t` walk cost, if any, fits below the sentinel). -/
theorem add_edge_never_increases {g : Graph} (hE : nonnegWeights g.edges)
    {e : Edge} (he : 0 ≤ e.weight) {s t : Int}
    (hfit : ∀ d, IsMinDist (g.add_edge e).edges s t d → d ≤ i32Max)
    {v v2 : Int} (hv : Returns g s t v) (hv2 : Returns (g.add_edge e) s t v2) :
    v2 ≤ v := by
  have hE2 : nonnegWeights (g.add_edge e).edges := nonnegWeights_add_edge hE he
  obtain ⟨w1, hr1, hc1⟩ := shortest_path_spec hE s t
  obtain ⟨w2, hr2, hc2⟩ := shortest_path_spec hE2 s t
  have e1 : v = w1 := Returns_unique hv hr1
  have e2 : v2 = w2 := Returns_unique hv2 hr2
  subst e1
  subst e2
  have hw2max : v2 ≤ i32Max := by
    rcases hc2 with hmin | ⟨heq, _⟩
    · exact hfit _ hmin
    · exact le_of_eq heq
  rcases hc1 with ⟨hreach1, _⟩ | ⟨heq1, _⟩
  · rcases hc2 with ⟨_, hmin2⟩ | ⟨_, hunr2⟩
    · exact hmin2 v (Reaches.mono_add_edge e hreach1)
    · exact absurd (Reaches.mono_add_edge e hreach1) (hunr2 v)
  · rw [heq1]
    exact hw2max

theorem add_edge_never_increases_witness : (9 : Int) ≤ i32Max := by
  have hreach : Reaches ((Graph.new.add_edge ⟨1, 2, 4⟩).add_edge ⟨2, 3, 5⟩).edges
      1 3 9 := by
    have h1 : (⟨1, 2, 4⟩ : Edge) ∈
        edgesAt ((Graph.new.add_edge ⟨1, 2, 4⟩).add_edge ⟨2, 3, 5⟩).edges 1 := by
      decide
    have h2 : (⟨2, 3, 5⟩ : Edge) ∈
        edgesAt ((Graph.new.add_edge ⟨1, 2, 4⟩).add_edge ⟨2, 3, 5⟩).edges 2 := by
      decide
    have := Reaches.step (E := ((Graph.new.add_edge ⟨1, 2, 4⟩).add_edge
      ⟨2, 3, 5⟩).edges) ⟨1, 2, 4⟩ h1 (Reaches.step ⟨2, 3, 5⟩ h2 (Reaches.refl 3))
    simpa using this
  have hfit : ∀ d,
      IsMinDist ((Graph.new.add_edge ⟨1, 2, 4⟩).add_edge ⟨2, 3, 5⟩).edges 1 3 d →
      d ≤ i32Max := by
    intro d hd
    exact le_trans (hd.2 9 hreach) (by decide)
  exact add_edge_never_increases (by decide) (by decide) hfit
    ⟨3, by decide⟩ ⟨3, by decide⟩

theorem gNeg_edgesAt_1 : edgesAt gNeg.edges 1 = [⟨1, 2, -1⟩] := by decide

theorem gNeg_edgesAt_2 : edgesAt gNeg.edges 2 = [⟨2, 1, -1⟩] := by decide

theorem gNeg_stepAt2 (f : Nat) (a b : Int) (h : b + -1 < a) :
    dijkstraLoop gNeg.edges 3 (f + 1) [(1, a), (2, b)] [⟨b, 2⟩] =
      dijkstraLoop gNeg.edges 3 f [(1, b + -1), (2, b)] [⟨b + -1, 1⟩] := by
  rw [dijkstraLoop]
  simp only [popMin]
  rw [if_neg (by decide : ¬ (2 : Int) = 3)]
  have hl : alookup [((1 : Int), a), (2, b)] 2 = some b := by
    simp [alookup]
  simp only [hl]
  rw [if_neg (lt_irrefl b)]
  rw [gNeg_edgesAt_2]
  rw [relaxEdges_cons_improve (fun cur hcur => by
    have : alookup [((1 : Int), a), (2, b)] 1 = some a := by simp [alookup]
    rw [this] at hcur
    cases hcur
    exact h)]
  simp [relaxEdges, ainsert]

theorem gNeg_stepAt1 (f : Nat) (a b : Int) (h : a + -1 < b) :
    dijkstraLoop gNeg.edges 3 (f + 1) [(1, a), (2, b)] [⟨a, 1⟩] =
      dijkstraLoop gNeg.edges 3 f [(1, a), (2, a + -1)] [⟨a + -1, 2⟩] := by
  rw [dijkstraLoop]
  simp only [popMin]
  rw [if_neg (by decide : ¬ (1 : Int) = 3)]
  have hl : alookup [((1 : Int), a), (2, b)] 1 = some a := by
    simp [alookup]
  simp only [hl]
  rw [if_neg (lt_irrefl a)]
  rw [gNeg_edgesAt_1]
  rw [relaxEdges_cons_improve (fun cur hcur => by
    have : alookup [((1 : Int), a), (2, b)] 2 = some b := by simp [alookup]
    rw [this] at hcur
    cases hcur
    exact h)]
  simp [relaxEdges, ainsert]

theorem gNeg_diverges : ∀ (f : Nat) (a b : Int),
    (b + -1 < a → dijkstraLoop gNeg.edges 3 f [(1, a), (2, b)] [⟨b, 2⟩] = none) ∧
    (a + -1 < b → dijkstraLoop gNeg.edges 3 f [(1, a), (2, b)] [⟨a, 1⟩] = none) := by
  intro f
  induction f with
  | zero => exact fun a b => ⟨fun _ => rfl, fun _ => rfl⟩
  | succ f ih =>
    intro a b
    constructor
    · intro h
      rw [gNeg_stepAt2 f a b h]
      exact (ih (b + -1) b).2 (by omega)
    · intro h
      rw [gNeg_stepAt1 f a b h]
      exact (ih a (a + -1)).1 (by omega)

theorem gNeg_shortest_path_none : ∀ fuel, gNeg.shortest_path 1 3 fuel = none := by
  intro fuel
  match fuel with
  | 0 => rfl
  | f + 1 =>
    have hstep : gNeg.shortest_path 1 3 (f + 1) =
        dijkstraLoop gNeg.edges 3 f [(1, 0), (2, 0 + -1)] [⟨0 + -1, 2⟩] := by
      rw [Graph.shortest_path, dijkstraLoop]
      simp only [popMin]
      rw [if_neg (by decide : ¬ (1 : Int) = 3)]
      have hl : alookup (ainsert ([] : List (Int × Int)) 1 0) 1 = some 0 := by
        simp [ainsert, alookup]
      simp only [hl]
      rw [if_neg (lt_irrefl (0 : Int))]
      rw [gNeg_edgesAt_1]
      rw [relaxEdges_cons_improve (fun cur hcur => by
        have : alookup (ainsert ([] : List (Int × Int)) 1 0) 2 = none := by
          simp [ainsert, alookup]
        rw [this] at hcur
        cases hcur)]
      simp [relaxEdges, ainsert, alookup]
    rw [hstep]
    exact (gNeg_diverges f 0 (0 + -1)).1 (by omega)

theorem gNeg_reach_set : ∀ (u v c : Int), Reaches gNeg.edges u v c →
    u = 1 ∨ u = 2 → v = 1 ∨ v = 2 := by
  intro u v c h
  induction h with
  | refl x => exact id
  | step e he h2 ih =>
    intro hu
    apply ih
    rcases hu with h1 | h1
    · subst h1
      rw [gNeg_edgesAt_1] at he
      rcases List.mem_singleton.mp he with rfl
      exact Or.inr rfl
    · subst h1
      rw [gNeg_edgesAt_2] at he
      rcases List.mem_singleton.mp he with rfl
      exact Or.inl rfl

theorem gNeg_unreachable : Unreachable gNeg.edges 1 3 := by
  intro c h
  rcases gNeg_reach_set 1 3 c h (Or.inl rfl) with h1 | h1 <;> cases h1

/-- Claim C2 counterexample. -/
theorem shortest_path_unreachable_sentinel_cex :
    Unreachable gNeg.edges 1 3 ∧ ¬ Returns gNeg 1 3 i32Max := by
  refine ⟨gNeg_unreachable, ?_⟩
  intro hret
  obtain ⟨fuel, hrun⟩ := hret
  rw [gNeg_shortest_path_none fuel] at hrun
  cases hrun

/-- Claim C6 counterexample. -/
theorem shortest_path_triangle_cex :
    nonnegWeights gBig.edges ∧
    Returns gBig 1 5 i32Max ∧ Returns gBig 5 4 i32Max ∧
    Returns gBig 1 4 (3 * i32Max) ∧ ¬ (3 * i32Max ≤ i32Max + i32Max) := by
  exact ⟨by decide, ⟨10, by decide⟩, ⟨2, by decide⟩, ⟨10, by decide⟩, by decide⟩

end GraphRs
